import Mathlib

/-!
Verification of the relevance-scoring and selection pipeline in `main.py`
(class `DocumentAnalyzer`).  Text is embedded as `List Char`; every source
function is translated to an executable Lean definition of the same name
(whitespace collapsing, the TOC/page section extractor, the keyword scorer,
the three model-oracle wrappers with their fallbacks, the stable descending
sort, and `process_from_config` with its two excerpt-building passes).
The external collaborators (PyMuPDF page access and the llama model) are
modelled as data: a document carries an optional payload (`none` = the
open/read raised) and the model is an optional `Text → Option Text`
(`none` result = the call raised).
-/

abbrev Text := List Char

/-- Python `\s`-class membership for the characters the pipeline meets. -/
def isWs (c : Char) : Bool :=
  c = ' ' || c = '\t' || c = '\n' || c = '\r' || c = '\x0b' || c = '\x0c'

/-- Convert a Lean string literal to the `Text` representation. -/
def str (s : String) : Text := s.data

/-- Python `str.strip()` (no argument): drop leading and trailing whitespace. -/
def trim (t : Text) : Text := (t.dropWhile isWs).rdropWhile isWs

/-- Python `str.lower()` (the pipeline's inputs are ASCII). -/
def toLowerT (t : Text) : Text := t.map Char.toLower

/-- One step of `re.sub(r'\s+', ' ', text)`: `prevWs` records whether the
previous character was part of a whitespace run already emitted as `' '`. -/
def collapseWs (prevWs : Bool) : Text → Text
  | [] => []
  | c :: cs =>
    if isWs c then
      if prevWs then collapseWs true cs else ' ' :: collapseWs true cs
    else c :: collapseWs false cs

/-- `clean_text` from the source: collapse whitespace runs to single spaces,
then strip. -/
def clean_text (t : Text) : Text := trim (collapseWs false t)

/-- Python `needle in hay` on strings: contiguous-substring test. -/
def containsSub (needle : Text) : Text → Bool
  | [] => needle.isEmpty
  | c :: cs => needle.isPrefixOf (c :: cs) || containsSub needle cs

/-- Python `str.split('\n')` helper carrying the current field (reversed). -/
def splitNlGo (cur : Text) : Text → List Text
  | [] => [cur.reverse]
  | c :: cs => if c = '\n' then cur.reverse :: splitNlGo [] cs else splitNlGo (c :: cur) cs

/-- Python `str.split('\n')`. -/
def splitNl (t : Text) : List Text := splitNlGo [] t

/-- Python `str.split()` (no argument): whitespace-run split, no empty fields.
`cur` is the field being built, reversed. -/
def splitWsGo (cur : Text) : Text → List Text
  | [] => if cur.isEmpty then [] else [cur.reverse]
  | c :: cs =>
    if isWs c then
      if cur.isEmpty then splitWsGo [] cs else cur.reverse :: splitWsGo [] cs
    else splitWsGo (c :: cur) cs

/-- Python `str.split()` (no argument). -/
def splitWs (t : Text) : List Text := splitWsGo [] t

/-- Python `str.replace('\n', ' > ')` as used on refined excerpt text. -/
def replaceNl : Text → Text
  | [] => []
  | c :: cs => if c = '\n' then ' ' :: '>' :: ' ' :: replaceNl cs else c :: replaceNl cs

/-- Membership in the punctuation set of `str.strip('.,!?;:"')`. -/
def isPunct (c : Char) : Bool :=
  c = '.' || c = ',' || c = '!' || c = '?' || c = ';' || c = ':' || c = '"'

/-- Python `str.strip('.,!?;:"')`. -/
def stripPunct (t : Text) : Text := (t.dropWhile isPunct).rdropWhile isPunct

/-- Python `str.replace(',', ' ')`. -/
def replaceComma (t : Text) : Text := t.map (fun c => if c = ',' then ' ' else c)

/-- One extracted section record (`document`, `page_number`, `section_title`,
`content` keys of the dicts built by `extract_pdf_sections`). -/
structure Section where
  document : Text
  page_number : Nat
  section_title : Text
  content : Text
deriving DecidableEq, Repr

/-- A section after the scoring loop attached `relevance_score`. -/
structure ScoredSection extends Section where
  relevance_score : Nat
deriving DecidableEq, Repr

/-- A top candidate after `llm_analyze_section` attached `llm_analysis`. -/
structure AnalyzedSection extends ScoredSection where
  llm_analysis : Text
deriving DecidableEq, Repr

/-- One entry of `subsection_analysis`. -/
structure SubEntry where
  document : Text
  refined_text : Text
  page_number : Nat
deriving DecidableEq, Repr

/-- One entry of `extracted_sections`. -/
structure ExtractedEntry where
  document : Text
  section_title : Text
  importance_rank : Nat
  page_number : Nat
deriving DecidableEq, Repr

/-- The `metadata` block of the result. -/
structure Metadata where
  input_documents : List Text
  persona : Text
  job_to_be_done : Text
  processing_timestamp : Text
deriving DecidableEq, Repr

/-- The full result dict built by `process_from_config`. -/
structure RunResult where
  metadata : Metadata
  extracted_sections : List ExtractedEntry
  subsection_analysis : List SubEntry
deriving DecidableEq, Repr

/-- `sum(1 for word in kws if word in content or word in title)`: the keyword
lists are built deduplicated, matching Python's iteration over a `set`. -/
def countMatch (kws : List Text) (content title : Text) : Nat :=
  kws.countP (fun w => containsSub w content || containsSub w title)

/-- The weighted raw score of `fast_keyword_score`:
`(persona_matches * 2) + (job_matches * 3) + domain_matches`, where each
match test is Python substring membership in the lowercased content or
lowercased title. -/
def raw_keyword_score (s : Section) (personaKws jobKws domainKws : List Text) : Nat :=
  let content := toLowerT s.content
  let title := toLowerT s.section_title
  let persona_matches := countMatch personaKws content title
  let job_matches := countMatch jobKws content title
  let domain_matches := countMatch domainKws content title
  persona_matches * 2 + job_matches * 3 + domain_matches

/-- The final scaling step of `fast_keyword_score`: `min(10, max(1, raw + 3))`. -/
def scale_score (raw : Nat) : Nat := min 10 (max 1 (raw + 3))

/-- `fast_keyword_score` from the source. -/
def fast_keyword_score (s : Section) (personaKws jobKws domainKws : List Text) : Nat :=
  scale_score (raw_keyword_score s personaKws jobKws domainKws)

/-- The keyword sets of `process_from_config`:
`set(persona.lower().split())` — case-folded, whitespace-split, deduplicated. -/
def keywordSet (t : Text) : List Text := (splitWs (toLowerT t)).dedup

/-- The scoring formula exactly as the specification words it (for refutation):
`3 × |titleTokens ∩ (personaTokens ∪ jobTokens)| +
 1 × |contentTokens(prefix) ∩ (personaTokens ∪ jobTokens)| + levelBonus`,
clamped to the fixed 1–10 range; `levelBonus` is zero for sections at the
deepest level (every section the code builds carries no level field). -/
def specC2Score (s : Section) (personaKws jobKws : List Text)
    (levelBonus prefixLen : Nat) : Nat :=
  let pool := (personaKws ++ jobKws).dedup
  let titleTokens := (splitWs (toLowerT s.section_title)).dedup
  let contentTokens := (splitWs (toLowerT (s.content.take prefixLen))).dedup
  let titleTerm := titleTokens.countP (fun w => pool.contains w)
  let contentTerm := contentTokens.countP (fun w => pool.contains w)
  min 10 (max 1 (3 * titleTerm + 1 * contentTerm + levelBonus))

/-- The score formula the code actually implements, stated in the amended
claim's vocabulary: a +3 offset plus 2 points per persona keyword, 3 per job
keyword and 1 per domain keyword occurring as a substring of the lowercased
content or lowercased title, clamped to 1–10; there is no level bonus and no
content-prefix bound. -/
def amendedC2Score (s : Section) (personaKws jobKws domainKws : List Text) : Nat :=
  let c := toLowerT s.content
  let t := toLowerT s.section_title
  let hits := fun (kws : List Text) =>
    (kws.filter (fun w => containsSub w c || containsSub w t)).length
  min 10 (max 1 (hits personaKws * 2 + hits jobKws * 3 + hits domainKws * 1 + 3))

/-- One `(level, title, page)` entry of `doc.get_toc()` (pages 1-based). -/
structure TocEntry where
  level : Nat
  title : Text
  page : Nat
deriving DecidableEq, Repr

/-- The data a successfully opened document exposes: its table of contents
and its page texts; a page holding `none` is one whose `get_text()` raises. -/
structure PdfData where
  toc : List TocEntry
  pages : List (Option Text)
deriving DecidableEq, Repr

/-- A document handed to `extract_pdf_sections`: `payload = none` models
`fitz.open` (or `get_toc`) raising for this path. -/
structure PdfDoc where
  name : Text
  payload : Option PdfData
deriving DecidableEq, Repr

/-- The inner lookahead of the TOC loop: scanning the entries after the
current one, `end_page` is `next.page - 1` for the first entry at the same
or shallower level, else `len(doc) - 1`. -/
def tocEndPage (numPages lvl : Nat) : List TocEntry → Nat
  | [] => numPages - 1
  | e :: rest => if e.level ≤ lvl then e.page - 1 else tocEndPage numPages lvl rest

/-- The 0-based page indices the TOC loop reads for entry `e` followed by
`rest`: `range(start_page, min(end_page + 1, len(doc)))`. -/
def sectionPageIdxs (numPages : Nat) (e : TocEntry) (rest : List TocEntry) : List Nat :=
  List.range' (e.page - 1) (min (tocEndPage numPages e.level rest + 1) numPages - (e.page - 1))

/-- `content += doc[idx].get_text() + "\n"` over a list of page indices;
`none` when any page read raises (the partial concatenation is discarded,
exactly as the exception discards the local `content`). -/
def joinPages (pages : List (Option Text)) : List Nat → Option Text
  | [] => some []
  | i :: is =>
    match pages.getD i none, joinPages pages is with
    | some t, some r => some (t ++ '\n' :: r)
    | _, _ => none

/-- Prepend already-built sections to an extraction outcome; `.error`
means a page read raised and the remaining entries were abandoned. -/
def consSections (secs : List Section) :
    Except (List Section) (List Section) → Except (List Section) (List Section)
  | .ok s => .ok (secs ++ s)
  | .error s => .error (secs ++ s)

/-- The TOC branch of `extract_pdf_sections`: entries with `level <= 2`
produce a section when their cleaned page span is non-blank; a failing page
read aborts the whole loop keeping the sections appended so far. -/
def extractTocGo (name : Text) (numPages : Nat) (pages : List (Option Text)) :
    List TocEntry → Except (List Section) (List Section)
  | [] => .ok []
  | e :: rest =>
    if e.level ≤ 2 then
      match joinPages pages (sectionPageIdxs numPages e rest) with
      | none => .error []
      | some content =>
        let secs := if trim content = [] then []
          else [⟨name, e.page, trim e.title, (clean_text content).take 2000⟩]
        consSections secs (extractTocGo name numPages pages rest)
    else extractTocGo name numPages pages rest

/-- The title scan of the no-TOC branch: the first of the page's first five
lines whose stripped length lies strictly between 10 and 100, else the
generic placeholder title. -/
def pageTitleGo : List Text → Text
  | [] => str "Page Content"
  | l :: ls =>
    let t := trim l
    if 10 < t.length && t.length < 100 then t else pageTitleGo ls

/-- Title synthesis for a page in the no-TOC branch. -/
def pageTitle (content : Text) : Text := pageTitleGo ((splitNl content).take 5)

/-- The no-TOC branch of `extract_pdf_sections`: one section per non-blank
page; a failing `get_text()` aborts keeping earlier sections. -/
def extractPagesGo (name : Text) : Nat → List (Option Text) →
    Except (List Section) (List Section)
  | _, [] => .ok []
  | _, none :: _ => .error []
  | i, some c :: rest =>
    let secs := if trim c = [] then []
      else [⟨name, i + 1, pageTitle c, (clean_text c).take 2000⟩]
    consSections secs (extractPagesGo name (i + 1) rest)

/-- The minimal section appended by the `except` branch of
`extract_pdf_sections`. -/
def placeholderSection (name : Text) : Section :=
  ⟨name, 1, str "Content from " ++ name,
    str "Unable to extract detailed content from " ++ name⟩

/-- `extract_pdf_sections` from the source: TOC-driven extraction when a
table of contents exists, page-by-page otherwise; any failure appends the
placeholder section to whatever was extracted before the failure. -/
def extract_pdf_sections (doc : PdfDoc) : List Section :=
  match doc.payload with
  | none => [placeholderSection doc.name]
  | some d =>
    let r := if d.toc.isEmpty then extractPagesGo doc.name 0 d.pages
      else extractTocGo doc.name d.pages.length d.pages d.toc
    match r with
    | .ok s => s
    | .error s => s ++ [placeholderSection doc.name]

/-- `content += text + "\n"` over a list of page texts (total form, used by
the amended extraction contract). -/
def joinTexts : List Text → Text
  | [] => []
  | t :: ts => t ++ '\n' :: joinTexts ts

/-- Text of the 1-based page `pg` of a fully readable document. -/
def pageTextOf (pages : List (Option Text)) (pg : Nat) : Text :=
  (pages.getD (pg - 1) none).getD []

/-- The last 1-based page of an entry's span under the amended contract:
the start page of the next entry at the same or shallower level (clamped to
the page count), or the document's last page when no such entry follows. -/
def amendedStop (numPages lvl : Nat) (rest : List TocEntry) : Nat :=
  match rest.find? (fun x => x.level ≤ lvl) with
  | some x => min x.page numPages
  | none => numPages

/-- The amended TOC-extraction contract: an entry at level ≤ 2 with start
page `p` yields a section whose content is the cleaned concatenation of the
page texts from `p` through the start page of the next entry at the same or
shallower level, **inclusive** (through the document's last page when no
such entry follows); deeper entries are skipped and blank spans produce no
section.  `pageText pg` is the text of 1-based page `pg`. -/
def amendedTocSections (name : Text) (numPages : Nat) (pageText : Nat → Text) :
    List TocEntry → List Section
  | [] => []
  | e :: rest =>
    let tail := amendedTocSections name numPages pageText rest
    if e.level ≤ 2 then
      let content := joinTexts ((List.range'
        e.page (amendedStop numPages e.level rest + 1 - e.page)).map pageText)
      if trim content = [] then tail
      else ⟨name, e.page, trim e.title, (clean_text content).take 2000⟩ :: tail
    else tail

/-- The model collaborator: `none` models construction failure
(`self.llm = None`); a loaded model maps a prompt to `some` completion text,
or to `none` when the call raises. -/
abbrev Llm := Option (Text → Option Text)

/-- Prompt of `get_domain_keywords`. -/
def domainPrompt (persona job : Text) : Text :=
  str "List 10 keywords relevant for " ++ persona ++ str " doing " ++ job ++
    str ". Format: word1, word2, word3..."

/-- Prompt of `llm_analyze_section`. -/
def analyzePrompt (persona job title : Text) : Text :=
  str "For " ++ persona ++ str " doing '" ++ job ++ str "', rate relevance of: " ++
    title.take 100 ++ str ". Brief analysis:"

/-- Prompt of `llm_refine_content`. -/
def refinePrompt (persona job content : Text) : Text :=
  str "For " ++ persona ++ str " planning " ++ job ++ str ", key points from: " ++
    content.take 300 ++ str ". Summary:"

/-- Fallback keyword set when no model is loaded. -/
def fallbackDomainNoModel : List Text :=
  [str "relevant", str "important", str "useful", str "key", str "essential",
    str "main", str "primary"]

/-- Fallback keyword set when the model call raises. -/
def fallbackDomainOnError : List Text :=
  [str "relevant", str "important", str "useful", str "key", str "essential"]

/-- Fallback keyword set when the parsed response is empty. -/
def fallbackDomainEmptyParse : List Text :=
  [str "relevant", str "important", str "useful"]

/-- Keyword parsing of `get_domain_keywords`: commas to spaces, whitespace
split, per-word strip/lowercase/punctuation-strip, keep words longer than 2
characters, collect as a set. -/
def parseDomainKeywords (resp : Text) : List Text :=
  (((splitWs (replaceComma (trim resp))).map
    (fun w => stripPunct (toLowerT (trim w)))).filter (fun w => 2 < w.length)).dedup

/-- `get_domain_keywords` from the source. -/
def get_domain_keywords (llm : Llm) (persona job : Text) : List Text :=
  match llm with
  | none => fallbackDomainNoModel
  | some f =>
    match f (domainPrompt persona job) with
    | none => fallbackDomainOnError
    | some resp =>
      let kws := parseDomainKeywords resp
      if kws.isEmpty then fallbackDomainEmptyParse else kws

/-- Fallback analysis text when no model is loaded. -/
def analyzeFallbackNoModel (persona job : Text) (s : ScoredSection) : Text :=
  str "Keyword analysis: " ++ s.section_title ++ str " appears relevant for " ++
    persona ++ str " planning " ++ job

/-- Fallback analysis text when the model call raises. -/
def analyzeFallbackOnError (job : Text) (s : ScoredSection) : Text :=
  str "Analysis: " ++ s.section_title ++ str " relevant for " ++ job

/-- `llm_analyze_section` from the source. -/
def llm_analyze_section (llm : Llm) (s : ScoredSection) (persona job : Text) : Text :=
  match llm with
  | none => analyzeFallbackNoModel persona job s
  | some f =>
    match f (analyzePrompt persona job s.section_title) with
    | none => analyzeFallbackOnError job s
    | some resp => trim resp

/-- The shared fallback of `llm_refine_content` (no model, or call raised):
`content[:400].replace('\n', ' > ')`. -/
def refineFallback (content : Text) : Text := replaceNl (content.take 400)

/-- `llm_refine_content` from the source. -/
def llm_refine_content (llm : Llm) (content persona job : Text) : Text :=
  match llm with
  | none => refineFallback content
  | some f =>
    match f (refinePrompt persona job content) with
    | none => refineFallback content
    | some resp =>
      let refined := trim resp
      replaceNl (if refined.isEmpty then content.take 400 else refined)

/-- Insertion step of the stable descending sort: a new element passes over
exactly the elements of strictly greater score, so among equal scores the
earlier element stays first. -/
def insertDesc (x : ScoredSection) : List ScoredSection → List ScoredSection
  | [] => [x]
  | y :: ys =>
    if x.relevance_score < y.relevance_score then y :: insertDesc x ys
    else x :: y :: ys

/-- `scored_sections.sort(key=lambda x: x['relevance_score'], reverse=True)`:
Python's sort is stable, which this insertion sort reproduces exactly. -/
def sortDesc : List ScoredSection → List ScoredSection
  | [] => []
  | x :: xs => insertDesc x (sortDesc xs)

/-- The scoring loop of `process_from_config`: attach
`fast_keyword_score` to every extracted section, in extraction order. -/
def scoreAll (sections : List Section) (personaKws jobKws domainKws : List Text) :
    List ScoredSection :=
  sections.map (fun s => ⟨s, fast_keyword_score s personaKws jobKws domainKws⟩)

/-- Concatenation of the per-document extractions
(`all_sections.extend(sections)` over the found PDF files). -/
def allSections (docs : List PdfDoc) : List Section :=
  (docs.map extract_pdf_sections).flatten

/-- The "first substantial paragraph" scan: the first line whose stripped
length exceeds 100 characters, else the empty string. -/
def firstSubstantialLine : List Text → Text
  | [] => []
  | l :: ls =>
    let t := trim l
    if 100 < t.length then t else firstSubstantialLine ls

/-- `substantial_content` for one section in the first excerpt pass:
a substantial line of the content, else `content[:500]` when the whole
content is longer than 100 characters, else empty. -/
def substantialContent (content : Text) : Text :=
  let line := firstSubstantialLine (splitNl content)
  if line.isEmpty && 100 < content.length then content.take 500 else line

/-- First excerpt pass of `process_from_config`: among the top 5 sections,
those scoring at least 6 and owning substantial content yield a refined
excerpt truncated to 800 characters. -/
def phase1Subs (refine : Text → Text) (top : List AnalyzedSection) : List SubEntry :=
  top.filterMap (fun s =>
    if 6 ≤ s.relevance_score then
      if (substantialContent s.content).isEmpty then none
      else some ⟨s.document, (refine (substantialContent s.content)).take 800,
        s.page_number⟩
    else none)

/-- Body of the backfill `for` loop: walk the remaining analyzed sections,
stopping at 5 excerpts, appending one excerpt per non-blank content. -/
def backfillGo (refine : Text → Text) :
    List AnalyzedSection → List SubEntry → List SubEntry
  | [], subs => subs
  | s :: rest, subs =>
    if 5 ≤ subs.length then subs
    else
      let content := if 50 < s.content.length then s.content.take 400 else s.content
      if trim content = [] then backfillGo refine rest subs
      else backfillGo refine rest
        (subs ++ [⟨s.document, refine content, s.page_number⟩])

/-- One pass of the backfill `while` loop:
`for section in llm_analyzed_sections[len(subsections):]`. -/
def backfillPass (refine : Text → Text) (analyzed : List AnalyzedSection)
    (subs : List SubEntry) : List SubEntry :=
  backfillGo refine (analyzed.drop subs.length) subs

/-- The backfill `while` loop
(`while len(subsections) < 5 and len(llm_analyzed_sections) > len(subsections)`),
as a fuelled iteration; `process_from_config` runs it with fuel 5, which the
termination analysis shows is enough for every list the extractor produces. -/
def backfillLoop (refine : Text → Text) (analyzed : List AnalyzedSection) :
    Nat → List SubEntry → List SubEntry
  | 0, subs => subs
  | fuel + 1, subs =>
    if subs.length < 5 && subs.length < analyzed.length then
      backfillLoop refine analyzed fuel (backfillPass refine analyzed subs)
    else subs

/-- The excerpt record one backfill step builds from an analyzed section:
document, the refined (possibly 400-truncated) content, and the page — the
very record `backfillGo` appends. -/
def backfillEntry (refine : Text → Text) (s : AnalyzedSection) : SubEntry :=
  ⟨s.document,
    refine (if 50 < s.content.length then s.content.take 400 else s.content),
    s.page_number⟩

/-- The run configuration: `persona.role`, `job_to_be_done.task` and the
configured document filenames. -/
structure RunConfig where
  persona : Text
  job : Text
  documentNames : List Text
deriving DecidableEq, Repr

/-- `process_from_config` with its three oracle-dependent ingredients (the
domain keyword set, the per-section analysis text, and the excerpt refiner)
passed as arguments; `process_from_config` instantiates them from the model,
and the degraded-mode analysis instantiates them with the fallbacks. -/
def processCore (cfg : RunConfig) (docs : List PdfDoc) (ts : Text)
    (domainKws : List Text) (analyze : ScoredSection → Text)
    (refine : Text → Text) : RunResult :=
  let all_sections := allSections docs
  let persona_keywords := keywordSet cfg.persona
  let job_keywords := keywordSet cfg.job
  let scored_sections := scoreAll all_sections persona_keywords job_keywords domainKws
  let ranked := sortDesc scored_sections
  let top_candidates := ranked.take 10
  let llm_analyzed_sections := top_candidates.map
    (fun s => (⟨s, analyze s⟩ : AnalyzedSection))
  let top_sections := llm_analyzed_sections.take 5
  let subs1 := phase1Subs refine top_sections
  let subsections := backfillLoop refine llm_analyzed_sections 5 subs1
  { metadata := ⟨cfg.documentNames, cfg.persona, cfg.job, ts⟩
    extracted_sections := top_sections.enum.map
      (fun p => ⟨p.2.document, p.2.section_title, p.1 + 1, p.2.page_number⟩)
    subsection_analysis := subsections.take 5 }

/-- `process_from_config` from the source (the found PDF files, the config
and the timestamp are the I/O boundary and arrive as arguments). -/
def process_from_config (cfg : RunConfig) (docs : List PdfDoc) (ts : Text)
    (llm : Llm) : RunResult :=
  processCore cfg docs ts (get_domain_keywords llm cfg.persona cfg.job)
    (fun s => llm_analyze_section llm s cfg.persona cfg.job)
    (fun c => llm_refine_content llm c cfg.persona cfg.job)

/-- A model that loads but whose every call raises. -/
def alwaysFailingModel : Llm := some (fun _ => none)

/-- Whether a text is non-empty and starts with a non-whitespace character;
this holds for every content the extractor stores (cleaned text is stripped,
placeholder text starts with a letter) and it is what makes each backfill
pass append at least one excerpt. -/
def headNonWsB : Text → Bool
  | [] => false
  | c :: _ => !isWs c

/-- The sections an extraction branch has produced, whether or not a page
read aborted it. -/
def exceptSections : Except (List Section) (List Section) → List Section
  | .ok l => l
  | .error l => l

/-- Concrete payload for the extraction-boundary analysis: the spec's own
example, five readable pages and the outline
`[Intro at page 1 (H1), Methods at page 3 (H1)]`. -/
def c1data : PdfData :=
  ⟨[⟨1, str "Intro", 1⟩, ⟨1, str "Methods", 3⟩],
    [some (str "p1"), some (str "p2"), some (str "p3"),
      some (str "p4"), some (str "p5")]⟩

/-- The example document built from `c1data`. -/
def c1doc : PdfDoc := ⟨str "doc.pdf", some c1data⟩

/-- Concrete section for the scoring-formula analysis: title `"alpha"`,
empty content. -/
def c2section : Section := ⟨str "d", 1, str "alpha", []⟩

/-- Concrete run configuration for witnesses. -/
def c3cfg : RunConfig := ⟨str "p", str "j", []⟩

/-- Concrete payload for the failure-policy analysis: no outline, a
readable non-blank first page, and a second page whose read raises. -/
def c6data : PdfData := ⟨[], [some (str "hello world page one"), none]⟩

/-- The failure-policy document built from `c6data`. -/
def c6doc : PdfDoc := ⟨str "broken.pdf", some c6data⟩

/-- The section the failure-policy document yields from its readable page. -/
def c6section : Section :=
  ⟨str "broken.pdf", 1, str "hello world page one", str "hello world page one"⟩

/-- Concrete document for the threshold analysis: a single page whose tokens
share nothing with the persona, job or fallback domain keywords. -/
def c7pdf : PdfDoc :=
  ⟨str "doc.pdf", some ⟨[], [some (str "hello world page one content here")]⟩⟩

/-- Run configuration for the threshold analysis. -/
def c7cfg : RunConfig := ⟨str "alpha", str "beta", [str "doc.pdf"]⟩

/-- The threshold-analysis run: no model loaded. -/
def c7run : RunResult := process_from_config c7cfg [c7pdf] (str "ts") none

/-- A high-scoring analyzed section with substantial (101-character)
content, for the excerpt-threshold witness. -/
def c7topSection : AnalyzedSection :=
  ⟨⟨⟨str "D", 2, str "T", List.replicate 101 'x'⟩, 7⟩, str "a"⟩

/-- An analyzed section with short non-blank content, for the
backfill-termination witness. -/
def c9analyzed : AnalyzedSection := ⟨⟨⟨str "d", 1, str "t", str "hello"⟩, 3⟩, str "a"⟩

/-- Concrete document for the newline analysis: a document name containing a
newline and a failing open. -/
def c10doc : PdfDoc := ⟨'a' :: '\n' :: str "b.pdf", none⟩

theorem insertDesc_length (x : ScoredSection) (l : List ScoredSection) :
    (insertDesc x l).length = l.length + 1 := by
  induction l with
  | nil => rfl
  | cons y ys ih =>
    simp only [insertDesc]
    split <;> simp [ih]

theorem sortDesc_length (l : List ScoredSection) :
    (sortDesc l).length = l.length := by
  induction l with
  | nil => rfl
  | cons x xs ih => simp [sortDesc, insertDesc_length, ih]

theorem insertDesc_perm (x : ScoredSection) (l : List ScoredSection) :
    (insertDesc x l).Perm (x :: l) := by
  induction l with
  | nil => exact List.Perm.refl _
  | cons y ys ih =>
    simp only [insertDesc]
    split
    · exact (ih.cons y).trans (List.Perm.swap x y ys)
    · exact List.Perm.refl _

theorem sortDesc_perm (l : List ScoredSection) : (sortDesc l).Perm l := by
  induction l with
  | nil => exact List.Perm.refl _
  | cons x xs ih => exact (insertDesc_perm x (sortDesc xs)).trans (ih.cons x)

theorem insertDesc_sorted (x : ScoredSection) (l : List ScoredSection)
    (h : l.Pairwise (fun a b => b.relevance_score ≤ a.relevance_score)) :
    (insertDesc x l).Pairwise (fun a b => b.relevance_score ≤ a.relevance_score) := by
  induction l with
  | nil => simp [insertDesc]
  | cons y ys ih =>
    rcases List.pairwise_cons.mp h with ⟨hy, hys⟩
    simp only [insertDesc]
    split
    · next hlt =>
      refine List.pairwise_cons.mpr ⟨?_, ih hys⟩
      intro z hz
      rcases List.mem_cons.mp ((insertDesc_perm x ys).mem_iff.mp hz) with hzx | hzys
      · subst hzx; omega
      · exact hy z hzys
    · next hge =>
      refine List.pairwise_cons.mpr ⟨?_, h⟩
      intro z hz
      rcases List.mem_cons.mp hz with hzy | hzys
      · subst hzy; omega
      · have := hy z hzys; omega

theorem sortDesc_sorted (l : List ScoredSection) :
    (sortDesc l).Pairwise (fun a b => b.relevance_score ≤ a.relevance_score) := by
  induction l with
  | nil => simp [sortDesc]
  | cons x xs ih => exact insertDesc_sorted x _ ih

theorem insertDesc_filter (x : ScoredSection) (l : List ScoredSection) (s : Nat)
    (h : l.Pairwise (fun a b => b.relevance_score ≤ a.relevance_score)) :
    (insertDesc x l).filter (fun a => a.relevance_score == s)
      = if x.relevance_score == s
        then x :: l.filter (fun a => a.relevance_score == s)
        else l.filter (fun a => a.relevance_score == s) := by
  induction l with
  | nil =>
    simp only [insertDesc, List.filter]
    split <;> simp_all
  | cons y ys ih =>
    rcases List.pairwise_cons.mp h with ⟨hy, hys⟩
    simp only [insertDesc]
    split
    · next hlt =>
      rw [List.filter_cons, ih hys]
      by_cases hx : x.relevance_score = s
      · have hyne : (y.relevance_score == s) = false := by
          rw [beq_eq_false_iff_ne]; omega
        simp [hx, hyne, List.filter_cons]
      · have hxne : (x.relevance_score == s) = false := by
          rw [beq_eq_false_iff_ne]; exact hx
        simp [hxne, List.filter_cons]
    · next hge => rw [List.filter_cons]

theorem sortDesc_filter (l : List ScoredSection) (s : Nat) :
    (sortDesc l).filter (fun a => a.relevance_score == s)
      = l.filter (fun a => a.relevance_score == s) := by
  induction l with
  | nil => rfl
  | cons x xs ih =>
    simp only [sortDesc]
    rw [insertDesc_filter x _ s (sortDesc_sorted xs), ih, List.filter_cons]

/-- Claim C4: the ranking step of `process_from_config` sorts by
`relevance_score` descending with a literally stable order — the sorted
list is a permutation of the scored input, its scores are non-increasing,
and restricting both lists to any fixed score yields the very same
subsequence, so sections with equal scores keep their original extraction
order. -/
theorem c4_sort_stable :
    (∀ l : List ScoredSection, (sortDesc l).Perm l)
    ∧ (∀ l : List ScoredSection,
        (sortDesc l).Pairwise (fun a b => b.relevance_score ≤ a.relevance_score))
    ∧ (∀ (l : List ScoredSection) (s : Nat),
        (sortDesc l).filter (fun a => a.relevance_score == s)
          = l.filter (fun a => a.relevance_score == s)) :=
  ⟨sortDesc_perm, sortDesc_sorted, sortDesc_filter⟩

/-- Claim C2, counterexample: for the section titled `"alpha"` with empty
content, persona token set `{"alpha"}` and empty job set, the code's
`fast_keyword_score` returns 5 (persona weight 2 plus the +3 offset),
whereas the specification's formula — `3 × |titleTokens ∩ (P ∪ J)| +
1 × |contentPrefixTokens ∩ (P ∪ J)| + levelBonus`, clamped — yields 3
(with the content empty, the prefix bound is irrelevant, and the level
bonus is zero since every section the code builds is level-less). -/
theorem c2_counterexample :
    fast_keyword_score c2section [str "alpha"] [] [] = 5
    ∧ specC2Score c2section [str "alpha"] [] 0 400 = 3
    ∧ specC2Score c2section [str "alpha"] [] 0 0 = 3 := by
  refine ⟨by decide, by decide, by decide⟩

/-- Claim C2 as amended: the relevance score equals the clamp to 1–10 of a
+3 offset plus 2 points per persona keyword, 3 points per job keyword and
1 point per domain keyword occurring as a **substring** of the lowercased
content or the lowercased title (whole content, no prefix bound; no level
bonus; the keyword sets themselves are case-folded and whitespace-split
with no stemming, which `keywordSet` witnesses). -/
theorem c2_amended_score_formula :
    (∀ (s : Section) (pk jk dk : List Text),
        fast_keyword_score s pk jk dk = amendedC2Score s pk jk dk)
    ∧ (∀ t : Text, keywordSet t = (splitWs (toLowerT t)).dedup) := by
  constructor
  · intro s pk jk dk
    simp [fast_keyword_score, amendedC2Score, scale_score, raw_keyword_score,
      countMatch, List.countP_eq_length_filter, Nat.mul_one]
  · intro t
    rfl

/-- Claim C5: every relevance score is an integer between 1 and 10, the
clamp `scale_score` is monotone non-decreasing in the weighted raw
keyword-match sum, and `fast_keyword_score` is exactly that clamp applied
to the raw sum. -/
theorem c5_score_bounds_monotone :
    (∀ (s : Section) (pk jk dk : List Text),
        1 ≤ fast_keyword_score s pk jk dk ∧ fast_keyword_score s pk jk dk ≤ 10)
    ∧ (∀ a b : Nat, a ≤ b → scale_score a ≤ scale_score b)
    ∧ (∀ (s : Section) (pk jk dk : List Text),
        fast_keyword_score s pk jk dk
          = scale_score (raw_keyword_score s pk jk dk)) := by
  refine ⟨fun s pk jk dk => ?_, fun a b h => ?_, fun s pk jk dk => rfl⟩
  · unfold fast_keyword_score scale_score
    omega
  · unfold scale_score
    omega

/-- Witness for C5 at concrete inputs: instantiating the monotonicity
conjunct at 0 ≤ 7. -/
theorem c5_witness : scale_score 0 ≤ scale_score 7 :=
  c5_score_bounds_monotone.2.1 0 7 (by decide)

/-- Claim C8: for every run, `extracted_sections` and `subsection_analysis`
each hold at most 5 entries, and the `extracted_sections` count is exactly
the candidate-pool size clamped at 5, so a pool smaller than the cap yields
a correspondingly shorter list rather than an error. -/
theorem c8_output_caps (cfg : RunConfig) (docs : List PdfDoc) (ts : Text) (llm : Llm) :
    (process_from_config cfg docs ts llm).extracted_sections.length ≤ 5
    ∧ (process_from_config cfg docs ts llm).subsection_analysis.length ≤ 5
    ∧ (process_from_config cfg docs ts llm).extracted_sections.length
        = min 5 (allSections docs).length := by
  have hext : (process_from_config cfg docs ts llm).extracted_sections.length
      = min 5 (min 10 (allSections docs).length) := by
    simp [process_from_config, processCore, scoreAll, sortDesc_length]
  have hsub : (process_from_config cfg docs ts llm).subsection_analysis.length ≤ 5 := by
    simp [process_from_config, processCore]
  refine ⟨by omega, hsub, by omega⟩

/-- Claim C3: when the model fails to load (`llm = None`) or every model
call raises, `process_from_config` still produces its complete result and
every oracle call site substitutes its local fallback: the run equals the
pipeline instantiated with the fallback domain keywords, the fallback
analysis text and the fallback excerpt refiner — keyword-only mode. -/
theorem c3_model_failure_uses_fallbacks (cfg : RunConfig) (docs : List PdfDoc)
    (ts : Text) (f : Text → Option Text) (hf : ∀ x, f x = none) :
    process_from_config cfg docs ts none
      = processCore cfg docs ts fallbackDomainNoModel
          (analyzeFallbackNoModel cfg.persona cfg.job) refineFallback
    ∧ process_from_config cfg docs ts (some f)
      = processCore cfg docs ts fallbackDomainOnError
          (analyzeFallbackOnError cfg.job) refineFallback := by
  constructor
  · rfl
  · have h1 : get_domain_keywords (some f) cfg.persona cfg.job
        = fallbackDomainOnError := by
      simp [get_domain_keywords, hf]
    have h2 : (fun s => llm_analyze_section (some f) s cfg.persona cfg.job)
        = analyzeFallbackOnError cfg.job := by
      funext s
      simp [llm_analyze_section, hf]
    have h3 : (fun c => llm_refine_content (some f) c cfg.persona cfg.job)
        = refineFallback := by
      funext c
      simp [llm_refine_content, hf]
    rw [process_from_config, h1, h2, h3]

/-- Witness for C3 at concrete inputs: an always-raising model on the empty
document set substitutes the raise-path fallbacks everywhere. -/
theorem c3_witness :
    process_from_config c3cfg [] (str "t") (some (fun _ => none))
      = processCore c3cfg [] (str "t") fallbackDomainOnError
          (analyzeFallbackOnError c3cfg.job) refineFallback :=
  (c3_model_failure_uses_fallbacks c3cfg [] (str "t") (fun _ => none)
    (fun _ => rfl)).2

theorem dropWhile_head_false (p : Char → Bool) (l : Text) (c : Char) (cs : Text)
    (h : l.dropWhile p = c :: cs) : p c = false := by
  induction l with
  | nil => simp at h
  | cons x xs ih =>
    rw [List.dropWhile_cons] at h
    split at h
    · exact ih h
    · next hx =>
      injection h with h1 h2
      subst h1
      simpa using hx

theorem trim_head_not_ws (t : Text) (c : Char) (cs : Text)
    (h : trim t = c :: cs) : isWs c = false := by
  unfold trim at h
  rcases List.rdropWhile_prefix isWs (t.dropWhile isWs) with ⟨u, hu⟩
  rw [h] at hu
  exact dropWhile_head_false isWs t c (cs ++ u) (by rw [← hu]; simp)

theorem mem_trim (t : Text) (c : Char) (h : c ∈ trim t) : c ∈ t := by
  unfold trim at h
  have h1 : c ∈ t.dropWhile isWs :=
    (( List.rdropWhile_prefix isWs (t.dropWhile isWs)).sublist).mem h
  exact ((List.dropWhile_suffix isWs).sublist).mem h1

theorem trim_eq_nil_iff (t : Text) : trim t = [] ↔ ∀ x ∈ t, isWs x = true := by
  unfold trim
  rw [List.rdropWhile_eq_nil_iff]
  constructor
  · intro h x hx
    have hx' : x ∈ t.takeWhile isWs ++ t.dropWhile isWs := by
      rw [List.takeWhile_append_dropWhile isWs t]
      exact hx
    rcases List.mem_append.mp hx' with h1 | h2
    · exact List.mem_takeWhile_imp h1
    · exact h x h2
  · intro h x hx
    exact h x (((List.dropWhile_suffix isWs).sublist).mem hx)

theorem mem_collapseWs (b : Bool) (t : Text) (c : Char) (h : c ∈ collapseWs b t) :
    c = ' ' ∨ (c ∈ t ∧ isWs c = false) := by
  induction t generalizing b with
  | nil => simp [collapseWs] at h
  | cons x xs ih =>
    simp only [collapseWs] at h
    split at h
    · split at h
      · rcases ih true h with h1 | ⟨h2, h3⟩
        · exact Or.inl h1
        · exact Or.inr ⟨List.mem_cons_of_mem x h2, h3⟩
      · rcases List.mem_cons.mp h with h1 | h1
        · exact Or.inl h1
        · rcases ih true h1 with h2 | ⟨h2, h3⟩
          · exact Or.inl h2
          · exact Or.inr ⟨List.mem_cons_of_mem x h2, h3⟩
    · next hx =>
      rcases List.mem_cons.mp h with h1 | h1
      · subst h1
        exact Or.inr ⟨List.mem_cons_self c xs, by simpa using hx⟩
      · rcases ih false h1 with h2 | ⟨h2, h3⟩
        · exact Or.inl h2
        · exact Or.inr ⟨List.mem_cons_of_mem x h2, h3⟩

theorem collapseWs_mem (x : Char) (hw : isWs x = false) :
    ∀ (t : Text) (b : Bool), x ∈ t → x ∈ collapseWs b t := by
  intro t
  induction t with
  | nil =>
    intro b h
    simp at h
  | cons y ys ih =>
    intro b h
    rcases List.mem_cons.mp h with h1 | h1
    · subst h1
      simp [collapseWs, hw]
    · simp only [collapseWs]
      split
      · split
        · exact ih true h1
        · exact List.mem_cons_of_mem _ (ih true h1)
      · exact List.mem_cons_of_mem _ (ih false h1)

theorem clean_text_no_newline (t : Text) : '\n' ∉ clean_text t := by
  intro h
  have h1 := mem_trim _ _ h
  rcases mem_collapseWs false t _ h1 with h2 | ⟨h2, h3⟩
  · exact absurd h2 (by decide)
  · exact absurd h3 (by decide)

theorem clean_text_headNonWs (t : Text) (h : trim t ≠ []) :
    headNonWsB (clean_text t) = true := by
  have hex : ∃ x ∈ t, isWs x = false := by
    by_contra hall
    push_neg at hall
    refine h ((trim_eq_nil_iff t).mpr fun x hx => ?_)
    rcases Bool.eq_false_or_eq_true (isWs x) with hb | hb
    · exact hb
    · exact absurd hb (hall x hx)
  rcases hex with ⟨x, hx, hw⟩
  have hcoll : x ∈ collapseWs false t := collapseWs_mem x hw t false hx
  have hne : clean_text t ≠ [] := by
    intro hnil
    unfold clean_text at hnil
    have := (trim_eq_nil_iff _).mp hnil x hcoll
    rw [hw] at this
    cases this
  rcases hcl : clean_text t with _ | ⟨c, cs⟩
  · exact absurd hcl hne
  · have hc : isWs c = false := trim_head_not_ws (collapseWs false t) c cs hcl
    simp [headNonWsB, hc]

theorem headNonWsB_take (t : Text) (n : Nat) (h : headNonWsB t = true) (hn : n ≠ 0) :
    headNonWsB (t.take n) = true := by
  cases t with
  | nil => simp [headNonWsB] at h
  | cons c cs =>
    cases n with
    | zero => exact absurd rfl hn
    | succ m => simpa [List.take_succ_cons, headNonWsB] using h

theorem exceptSections_consSections (secs : List Section)
    (r : Except (List Section) (List Section)) :
    exceptSections (consSections secs r) = secs ++ exceptSections r := by
  cases r <;> rfl

theorem extractTocGo_shape (name : Text) (numPages : Nat) (pages : List (Option Text)) :
    ∀ (toc : List TocEntry) (s : Section),
      s ∈ exceptSections (extractTocGo name numPages pages toc) →
      ∃ c, trim c ≠ [] ∧ s.content = (clean_text c).take 2000 := by
  intro toc
  induction toc with
  | nil =>
    intro s hs
    simp [extractTocGo, exceptSections] at hs
  | cons e rest ih =>
    intro s hs
    simp only [extractTocGo] at hs
    split at hs
    · rcases hj : joinPages pages (sectionPageIdxs numPages e rest) with _ | content
      · rw [hj] at hs
        simp [exceptSections] at hs
      · rw [hj] at hs
        rw [exceptSections_consSections] at hs
        rcases List.mem_append.mp hs with h1 | h1
        · split at h1
          · simp at h1
          · next hnb =>
            have hseq := List.mem_singleton.mp h1
            subst hseq
            exact ⟨content, hnb, rfl⟩
        · exact ih s h1
    · exact ih s hs

theorem extractPagesGo_shape (name : Text) :
    ∀ (ps : List (Option Text)) (i : Nat) (s : Section),
      s ∈ exceptSections (extractPagesGo name i ps) →
      ∃ c, trim c ≠ [] ∧ s.content = (clean_text c).take 2000 := by
  intro ps
  induction ps with
  | nil =>
    intro i s hs
    simp [extractPagesGo, exceptSections] at hs
  | cons o rest ih =>
    intro i s hs
    cases o with
    | none => simp [extractPagesGo, exceptSections] at hs
    | some c =>
      simp only [extractPagesGo] at hs
      rw [exceptSections_consSections] at hs
      rcases List.mem_append.mp hs with h1 | h1
      · split at h1
        · simp at h1
        · next hnb =>
          have hseq := List.mem_singleton.mp h1
          subst hseq
          exact ⟨c, hnb, rfl⟩
      · exact ih (i + 1) s h1

theorem extractBranch_shape (name : Text) (d : PdfData) (s : Section)
    (hs : s ∈ exceptSections (if d.toc.isEmpty then extractPagesGo name 0 d.pages
      else extractTocGo name d.pages.length d.pages d.toc)) :
    ∃ c, trim c ≠ [] ∧ s.content = (clean_text c).take 2000 := by
  split at hs
  · exact extractPagesGo_shape name d.pages 0 s hs
  · exact extractTocGo_shape name d.pages.length d.pages d.toc s hs

theorem extract_sections_shape (doc : PdfDoc) (s : Section)
    (hs : s ∈ extract_pdf_sections doc) :
    s = placeholderSection doc.name
    ∨ ∃ c, trim c ≠ [] ∧ s.content = (clean_text c).take 2000 := by
  rcases doc with ⟨name, payload⟩
  cases payload with
  | none =>
    simp only [extract_pdf_sections] at hs
    exact Or.inl (List.mem_singleton.mp hs)
  | some d =>
    rcases hr : (if d.toc.isEmpty then extractPagesGo name 0 d.pages
        else extractTocGo name d.pages.length d.pages d.toc) with l | l
    · simp only [extract_pdf_sections, hr] at hs
      rcases List.mem_append.mp hs with h1 | h1
      · refine Or.inr (extractBranch_shape name d s ?_)
        rw [hr]
        exact h1
      · exact Or.inl (List.mem_singleton.mp h1)
    · simp only [extract_pdf_sections, hr] at hs
      refine Or.inr (extractBranch_shape name d s ?_)
      rw [hr]
      exact hs

theorem placeholder_headNonWs (name : Text) :
    headNonWsB (placeholderSection name).content = true := rfl

theorem extract_content_headNonWs (doc : PdfDoc) (s : Section)
    (hs : s ∈ extract_pdf_sections doc) : headNonWsB s.content = true := by
  rcases extract_sections_shape doc s hs with h | ⟨c, hnb, hc⟩
  · rw [h]
    exact placeholder_headNonWs doc.name
  · rw [hc]
    exact headNonWsB_take (clean_text c) 2000 (clean_text_headNonWs c hnb) (by decide)

theorem headNonWs_trim_ne (t : Text) (h : headNonWsB t = true) : trim t ≠ [] := by
  cases t with
  | nil => simp [headNonWsB] at h
  | cons c cs =>
    intro hnil
    have hmem := (trim_eq_nil_iff _).mp hnil c (List.mem_cons_self c cs)
    simp only [headNonWsB, Bool.not_eq_true'] at h
    rw [hmem] at h
    cases h

theorem backfill_content_ok (t : Text) (h : headNonWsB t = true) :
    trim (if 50 < t.length then t.take 400 else t) ≠ [] := by
  split
  · exact headNonWs_trim_ne _ (headNonWsB_take t 400 h (by decide))
  · exact headNonWs_trim_ne t h

theorem backfillGo_length_mono (rf : Text → Text) :
    ∀ (cands : List AnalyzedSection) (subs : List SubEntry),
      subs.length ≤ (backfillGo rf cands subs).length := by
  intro cands
  induction cands with
  | nil => intro subs; exact Nat.le_refl _
  | cons s rest ih =>
    intro subs
    simp only [backfillGo]
    split
    · exact Nat.le_refl _
    · split <;> split
      · exact ih subs
      · exact Nat.le_trans (by simp) (ih _)
      · exact ih subs
      · exact Nat.le_trans (by simp) (ih _)

theorem backfillPass_progress (rf : Text → Text) (analyzed : List AnalyzedSection)
    (subs : List SubEntry) (hlen : subs.length < 5)
    (hrem : subs.length < analyzed.length)
    (hinv : ∀ s ∈ analyzed, headNonWsB s.content = true) :
    subs.length + 1 ≤ (backfillPass rf analyzed subs).length := by
  unfold backfillPass
  rcases hd : analyzed.drop subs.length with _ | ⟨s, rest⟩
  · have := List.drop_eq_nil_iff.mp hd
    omega
  · have hsmem : s ∈ analyzed := by
      have hmem : s ∈ analyzed.drop subs.length := by
        rw [hd]
        exact List.mem_cons_self s rest
      exact (List.drop_sublist _ _).mem hmem
    simp only [backfillGo]
    rw [if_neg (by omega)]
    rw [if_neg (backfill_content_ok s.content (hinv s hsmem))]
    calc subs.length + 1
        = (subs ++ [(⟨s.document, rf (if 50 < s.content.length
            then s.content.take 400 else s.content), s.page_number⟩ : SubEntry)]).length := by
          simp
      _ ≤ _ := backfillGo_length_mono rf rest _

theorem backfillLoop_zero (rf : Text → Text) (analyzed : List AnalyzedSection)
    (subs : List SubEntry) : backfillLoop rf analyzed 0 subs = subs := rfl

theorem backfillLoop_succ (rf : Text → Text) (analyzed : List AnalyzedSection)
    (fuel : Nat) (subs : List SubEntry) :
    backfillLoop rf analyzed (fuel + 1) subs
      = if (decide (subs.length < 5) && decide (subs.length < analyzed.length)) = true
        then backfillLoop rf analyzed fuel (backfillPass rf analyzed subs)
        else subs := rfl

theorem backfillLoop_fuel (rf : Text → Text) (analyzed : List AnalyzedSection)
    (hinv : ∀ s ∈ analyzed, headNonWsB s.content = true) :
    ∀ (fuel : Nat) (subs : List SubEntry), 5 ≤ fuel + subs.length →
      backfillLoop rf analyzed (fuel + 1) subs = backfillLoop rf analyzed fuel subs := by
  intro fuel
  induction fuel with
  | zero =>
    intro subs h
    have hc : ¬(decide (subs.length < 5) && decide (subs.length < analyzed.length)) = true := by
      simp only [Bool.and_eq_true, decide_eq_true_eq]
      omega
    rw [backfillLoop_succ, if_neg hc]
    exact (backfillLoop_zero rf analyzed subs).symm
  | succ n ihn =>
    intro subs h
    by_cases hc : (decide (subs.length < 5) && decide (subs.length < analyzed.length)) = true
    · have hc' : subs.length < 5 ∧ subs.length < analyzed.length := by simpa using hc
      rw [backfillLoop_succ, backfillLoop_succ rf analyzed n subs, if_pos hc, if_pos hc]
      refine ihn (backfillPass rf analyzed subs) ?_
      have := backfillPass_progress rf analyzed subs hc'.1 hc'.2 hinv
      omega
    · rw [backfillLoop_succ, backfillLoop_succ rf analyzed n subs, if_neg hc, if_neg hc]

/-- Claim C9: the backfill `while` loop terminates on every input the
pipeline can feed it — every section `extract_pdf_sections` produces has
non-empty, non-blank content (first conjunct), and under that invariant
each pass appends at least one excerpt, so five iterations always reach the
loop's exit condition: any fuel beyond 5 changes nothing (second conjunct). -/
theorem c9_backfill_terminates :
    (∀ (doc : PdfDoc) (s : Section), s ∈ extract_pdf_sections doc →
        headNonWsB s.content = true)
    ∧ (∀ (rf : Text → Text) (analyzed : List AnalyzedSection)
        (subs : List SubEntry) (k : Nat),
        (∀ s ∈ analyzed, headNonWsB s.content = true) →
        backfillLoop rf analyzed (5 + k) subs = backfillLoop rf analyzed 5 subs) := by
  refine ⟨extract_content_headNonWs, ?_⟩
  intro rf analyzed subs k hinv
  induction k with
  | zero => rfl
  | succ n ihn =>
    have hstep : backfillLoop rf analyzed (5 + n + 1) subs
        = backfillLoop rf analyzed (5 + n) subs :=
      backfillLoop_fuel rf analyzed hinv (5 + n) subs (by omega)
    have harr : 5 + (n + 1) = 5 + n + 1 := rfl
    rw [harr, hstep, ihn]

/-- Witness for C9 at concrete inputs: with one analyzed section of
non-blank content, fuel 7 and fuel 5 agree. -/
theorem c9_witness :
    backfillLoop id [c9analyzed] 7 [] = backfillLoop id [c9analyzed] 5 [] :=
  c9_backfill_terminates.2 id [c9analyzed] [] 2 (by decide)

/-- Claim C6, counterexample: for a document whose second page read raises
after a first page was already extracted, `extract_pdf_sections` returns the
extracted section **plus** the placeholder — two records, not "a single
placeholder Section". -/
theorem c6_counterexample :
    extract_pdf_sections c6doc = [c6section, placeholderSection (str "broken.pdf")]
    ∧ (extract_pdf_sections c6doc).length = 2
    ∧ c6section ≠ placeholderSection (str "broken.pdf") :=
  ⟨rfl, rfl, by decide⟩

/-- Claim C6 as amended: when extraction fails, `extract_pdf_sections` does
not raise; it appends one placeholder section (sentinel title referencing the
document) after whatever sections were already extracted, so a failing
document always contributes at least one record — and when the failure
precedes any section (an unreadable document) the result is exactly the
single placeholder. -/
theorem c6_amended_placeholder :
    (∀ name : Text, extract_pdf_sections ⟨name, none⟩ = [placeholderSection name])
    ∧ (∀ (name : Text) (d : PdfData) (pre : List Section),
        (if d.toc.isEmpty then extractPagesGo name 0 d.pages
          else extractTocGo name d.pages.length d.pages d.toc) = .error pre →
        extract_pdf_sections ⟨name, some d⟩ = pre ++ [placeholderSection name]
        ∧ 1 ≤ (extract_pdf_sections ⟨name, some d⟩).length) := by
  constructor
  · intro name
    rfl
  · intro name d pre h
    have hx : extract_pdf_sections ⟨name, some d⟩ = pre ++ [placeholderSection name] := by
      simp only [extract_pdf_sections, h]
    refine ⟨hx, ?_⟩
    rw [hx]
    simp

/-- Witness for C6 at concrete inputs: the two-page document whose second
read raises yields its extracted section followed by the placeholder. -/
theorem c6_witness :
    extract_pdf_sections ⟨str "broken.pdf", some c6data⟩
      = [c6section] ++ [placeholderSection (str "broken.pdf")] :=
  ((c6_amended_placeholder.2 (str "broken.pdf") c6data [c6section]) rfl).1

theorem splitNlGo_no_nl : ∀ (t cur : Text), '\n' ∉ t →
    splitNlGo cur t = [cur.reverse ++ t] := by
  intro t
  induction t with
  | nil =>
    intro cur h
    simp [splitNlGo]
  | cons c cs ih =>
    intro cur h
    rw [List.mem_cons, not_or] at h
    simp only [splitNlGo]
    rw [if_neg (fun he => h.1 he.symm), ih (c :: cur) h.2]
    simp

theorem splitNl_no_nl (t : Text) (h : '\n' ∉ t) : splitNl t = [t] := by
  unfold splitNl
  rw [splitNlGo_no_nl t [] h]
  rfl

theorem replaceNl_no_nl : ∀ t : Text, '\n' ∉ t → replaceNl t = t := by
  intro t
  induction t with
  | nil => intro h; rfl
  | cons c cs ih =>
    intro h
    rw [List.mem_cons, not_or] at h
    simp only [replaceNl]
    rw [if_neg (fun he => h.1 he.symm), ih h.2]

/-- Claim C10, counterexample: the placeholder path interpolates the raw
document name without normalization, so a newline-bearing name produces a
section whose content contains a newline — "every section produced by
`extract_pdf_sections` has content containing no newline" fails there. -/
theorem c10_counterexample :
    extract_pdf_sections c10doc = [placeholderSection c10doc.name]
    ∧ '\n' ∈ (placeholderSection c10doc.name).content :=
  ⟨rfl, by decide⟩

/-- Claim C10 as amended: `clean_text` output never contains a newline, so
every extracted section's content is newline-free **provided the document
name is newline-free** (only the placeholder path embeds the raw name);
consequently splitting such content on newlines yields the whole content as
the single line, the first-substantial-line scan can only select the entire
(trimmed) content, and the newline-to-separator replacement is a no-op. -/
theorem c10_amended_no_newline :
    (∀ t : Text, '\n' ∉ clean_text t)
    ∧ (∀ (doc : PdfDoc) (s : Section), s ∈ extract_pdf_sections doc →
        '\n' ∉ doc.name → '\n' ∉ s.content)
    ∧ (∀ t : Text, '\n' ∉ t → splitNl t = [t])
    ∧ (∀ t : Text, '\n' ∉ t → replaceNl t = t)
    ∧ (∀ t : Text, '\n' ∉ t →
        firstSubstantialLine (splitNl t)
          = if 100 < (trim t).length then trim t else []) := by
  refine ⟨clean_text_no_newline, ?_, splitNl_no_nl, replaceNl_no_nl, ?_⟩
  · intro doc s hs hname
    rcases extract_sections_shape doc s hs with h | ⟨c, hnb, hc⟩
    · rw [h]
      intro hmem
      simp only [placeholderSection] at hmem
      rcases List.mem_append.mp hmem with h1 | h1
      · exact absurd h1 (by decide)
      · exact hname h1
    · rw [hc]
      intro hmem
      exact clean_text_no_newline c ((List.take_sublist 2000 _).mem hmem)
  · intro t h
    rw [splitNl_no_nl t h]
    simp [firstSubstantialLine]

/-- Witness for C10 at concrete inputs: on the newline-free text `"abc"`
the split yields the single whole line and the replacement is a no-op. -/
theorem c10_witness :
    splitNl (str "abc") = [str "abc"] ∧ replaceNl (str "abc") = str "abc" :=
  ⟨c10_amended_no_newline.2.2.1 (str "abc") (by decide),
    c10_amended_no_newline.2.2.2.1 (str "abc") (by decide)⟩

theorem phase1Subs_from_threshold (rf : Text → Text) (top : List AnalyzedSection)
    (e : SubEntry) (he : e ∈ phase1Subs rf top) :
    ∃ s ∈ top, 6 ≤ s.relevance_score
      ∧ (substantialContent s.content).isEmpty = false
      ∧ e = ⟨s.document, (rf (substantialContent s.content)).take 800,
          s.page_number⟩ := by
  unfold phase1Subs at he
  rcases List.mem_filterMap.mp he with ⟨s, hs, hf⟩
  refine ⟨s, hs, ?_⟩
  by_cases h6 : 6 ≤ s.relevance_score
  · rw [if_pos h6] at hf
    split at hf
    · cases hf
    · next hsc =>
      injection hf with hf'
      subst hf'
      exact ⟨h6, by simpa using hsc, rfl⟩
  · rw [if_neg h6] at hf
    cases hf

theorem backfillGo_mem (rf : Text → Text) :
    ∀ (cands : List AnalyzedSection) (subs : List SubEntry) (e : SubEntry),
      e ∈ backfillGo rf cands subs →
      e ∈ subs ∨ ∃ s ∈ cands, e.document = s.document
        ∧ e.page_number = s.page_number := by
  intro cands
  induction cands with
  | nil =>
    intro subs e he
    exact Or.inl he
  | cons s rest ih =>
    intro subs e he
    simp only [backfillGo] at he
    split at he
    · exact Or.inl he
    · split at he <;> split at he
      · rcases ih subs e he with h | ⟨x, hx, hd⟩
        · exact Or.inl h
        · exact Or.inr ⟨x, List.mem_cons_of_mem s hx, hd⟩
      · rcases ih _ e he with h | ⟨x, hx, hd⟩
        · rcases List.mem_append.mp h with h1 | h1
          · exact Or.inl h1
          · have he' := List.mem_singleton.mp h1
            subst he'
            exact Or.inr ⟨s, List.mem_cons_self s rest, rfl, rfl⟩
        · exact Or.inr ⟨x, List.mem_cons_of_mem s hx, hd⟩
      · rcases ih subs e he with h | ⟨x, hx, hd⟩
        · exact Or.inl h
        · exact Or.inr ⟨x, List.mem_cons_of_mem s hx, hd⟩
      · rcases ih _ e he with h | ⟨x, hx, hd⟩
        · rcases List.mem_append.mp h with h1 | h1
          · exact Or.inl h1
          · have he' := List.mem_singleton.mp h1
            subst he'
            exact Or.inr ⟨s, List.mem_cons_self s rest, rfl, rfl⟩
        · exact Or.inr ⟨x, List.mem_cons_of_mem s hx, hd⟩

theorem backfillPass_mem (rf : Text → Text) (analyzed : List AnalyzedSection)
    (subs : List SubEntry) (e : SubEntry) (he : e ∈ backfillPass rf analyzed subs) :
    e ∈ subs ∨ ∃ s ∈ analyzed, e.document = s.document
      ∧ e.page_number = s.page_number := by
  unfold backfillPass at he
  rcases backfillGo_mem rf _ subs e he with h | ⟨x, hx, hd⟩
  · exact Or.inl h
  · exact Or.inr ⟨x, (List.drop_sublist _ _).mem hx, hd⟩

theorem backfillLoop_mem (rf : Text → Text) (analyzed : List AnalyzedSection) :
    ∀ (fuel : Nat) (subs : List SubEntry) (e : SubEntry),
      e ∈ backfillLoop rf analyzed fuel subs →
      e ∈ subs ∨ ∃ s ∈ analyzed, e.document = s.document
        ∧ e.page_number = s.page_number := by
  intro fuel
  induction fuel with
  | zero =>
    intro subs e he
    exact Or.inl he
  | succ n ihn =>
    intro subs e he
    rw [backfillLoop_succ] at he
    split at he
    · rcases ihn _ e he with h | hr
      · exact backfillPass_mem rf analyzed subs e h
      · exact Or.inr hr
    · exact Or.inl he

theorem backfillGo_closed (rf : Text → Text) :
    ∀ (cands : List AnalyzedSection) (subs : List SubEntry),
      (∀ s ∈ cands, headNonWsB s.content = true) → subs.length ≤ 5 →
      backfillGo rf cands subs
        = subs ++ (cands.take (5 - subs.length)).map (backfillEntry rf) := by
  intro cands
  induction cands with
  | nil =>
    intro subs _ _
    simp [backfillGo]
  | cons s rest ih =>
    intro subs hinv hle
    simp only [backfillGo]
    split
    · next h5 =>
      have h0 : 5 - subs.length = 0 := by omega
      simp [h0]
    · next h5 =>
      rw [if_neg (backfill_content_ok s.content (hinv s (List.mem_cons_self s rest)))]
      have hent : (⟨s.document, rf (if 50 < s.content.length then s.content.take 400
          else s.content), s.page_number⟩ : SubEntry) = backfillEntry rf s := rfl
      rw [hent, ih (subs ++ [backfillEntry rf s])
        (fun x hx => hinv x (List.mem_cons_of_mem s hx)) (by simp; omega)]
      have htk : 5 - subs.length = (5 - (subs ++ [backfillEntry rf s]).length) + 1 := by
        simp
        omega
      rw [htk, List.take_succ_cons, List.map_cons]
      simp

theorem backfillLoop_guard_false (rf : Text → Text) (analyzed : List AnalyzedSection)
    (subs : List SubEntry)
    (h : ¬(subs.length < 5 ∧ subs.length < analyzed.length)) :
    ∀ fuel : Nat, backfillLoop rf analyzed fuel subs = subs := by
  intro fuel
  cases fuel with
  | zero => rfl
  | succ n =>
    have hc : ¬(decide (subs.length < 5) && decide (subs.length < analyzed.length))
        = true := by
      simp only [Bool.and_eq_true, decide_eq_true_eq]
      exact h
    rw [backfillLoop_succ, if_neg hc]

theorem backfillLoop_closed (rf : Text → Text) (analyzed : List AnalyzedSection)
    (subs : List SubEntry) (hinv : ∀ s ∈ analyzed, headNonWsB s.content = true) :
    backfillLoop rf analyzed 5 subs
      = subs ++ ((analyzed.drop subs.length).take (5 - subs.length)).map
          (backfillEntry rf) := by
  by_cases hg : subs.length < 5 ∧ subs.length < analyzed.length
  · have hc : (decide (subs.length < 5) && decide (subs.length < analyzed.length))
        = true := by
      simp [hg.1, hg.2]
    have hpass : backfillPass rf analyzed subs
        = subs ++ ((analyzed.drop subs.length).take (5 - subs.length)).map
            (backfillEntry rf) := by
      unfold backfillPass
      exact backfillGo_closed rf (analyzed.drop subs.length) subs
        (fun s hs => hinv s ((List.drop_sublist _ _).mem hs)) (by omega)
    have hstep : backfillLoop rf analyzed 5 subs
        = backfillLoop rf analyzed 4 (backfillPass rf analyzed subs) := by
      have h5 := backfillLoop_succ rf analyzed 4 subs
      rw [h5, if_pos hc]
    rw [hstep, hpass]
    have hL : (subs ++ ((analyzed.drop subs.length).take (5 - subs.length)).map
        (backfillEntry rf)).length
        = subs.length + min (5 - subs.length) (analyzed.length - subs.length) := by
      simp
    refine backfillLoop_guard_false rf analyzed _ ?_ 4
    rw [hL]
    omega
  · have hdone := backfillLoop_guard_false rf analyzed subs hg 5
    rw [hdone]
    have hnil : ((analyzed.drop subs.length).take (5 - subs.length)).map
        (backfillEntry rf) = [] := by
      rcases Decidable.not_and_iff_or_not.mp hg with h1 | h2
      · have h0 : 5 - subs.length = 0 := by omega
        simp [h0]
      · have hd : analyzed.drop subs.length = [] :=
          List.drop_eq_nil_of_le (by omega)
        simp [hd]
    rw [hnil]
    simp

/-- Claim C7, counterexample: a run whose only section scores 3 (below the
≥ 6 threshold) still gets an excerpt — the backfill loop adds excerpts from
analyzed sections regardless of the threshold, so "excerpts are drawn only
from sections meeting the minimum relevance threshold" fails even though the
candidate pool (1) is smaller than the cap (5). -/
theorem c7_counterexample :
    c7run.subsection_analysis
      = [⟨str "doc.pdf", str "hello world page one content here", 1⟩]
    ∧ (scoreAll (allSections [c7pdf]) (keywordSet c7cfg.persona) (keywordSet c7cfg.job)
        (get_domain_keywords none c7cfg.persona c7cfg.job)).map
          (fun s => s.relevance_score) = [3]
    ∧ (3 : Nat) < 6 :=
  ⟨by decide, by decide, by decide⟩

/-- Claim C7 as amended: only the **initial** excerpt pass honors the
threshold — each of its excerpts is exactly the 800-truncated refinement of
the substantial content of a top section with `relevance_score ≥ 6` and
non-empty substantial content (first conjunct).  The backfill loop then
literally tops the list up: as run by `process_from_config` (fuel 5), on any
pool of extractor-produced (non-blank) sections it returns the current
excerpts followed by one excerpt per remaining analyzed section — taken in
rank order from position `len(subsections)` onward, **regardless of the
threshold** — until the cap of 5 or the pool is exhausted (second conjunct:
a closed form whose `take (5 - |subs|)` is the cap and whose `drop |subs|`
past the end of the pool is exhaustion). -/
theorem c7_amended_threshold :
    (∀ (rf : Text → Text) (top : List AnalyzedSection) (e : SubEntry),
        e ∈ phase1Subs rf top →
        ∃ s ∈ top, 6 ≤ s.relevance_score
          ∧ (substantialContent s.content).isEmpty = false
          ∧ e = ⟨s.document, (rf (substantialContent s.content)).take 800,
              s.page_number⟩)
    ∧ (∀ (rf : Text → Text) (analyzed : List AnalyzedSection)
        (subs : List SubEntry),
        (∀ s ∈ analyzed, headNonWsB s.content = true) →
        backfillLoop rf analyzed 5 subs
          = subs ++ ((analyzed.drop subs.length).take (5 - subs.length)).map
              (backfillEntry rf)) :=
  ⟨phase1Subs_from_threshold, backfillLoop_closed⟩

/-- Witness for C7 at concrete inputs: the excerpt the initial pass produces
from the high-scoring `c7topSection` is exactly its refined substantial
content, and the backfill loop on a one-section pool tops the empty excerpt
list up with exactly that section's entry. -/
theorem c7_witness :
    (∃ s ∈ [c7topSection], 6 ≤ s.relevance_score
      ∧ (substantialContent s.content).isEmpty = false
      ∧ (⟨str "D", List.replicate 101 'x', 2⟩ : SubEntry)
          = ⟨s.document, (id (substantialContent s.content)).take 800, s.page_number⟩)
    ∧ backfillLoop id [c9analyzed] 5 []
        = [] ++ (([c9analyzed].drop 0).take 5).map (backfillEntry id) :=
  ⟨c7_amended_threshold.1 id [c7topSection]
      ⟨str "D", List.replicate 101 'x', 2⟩ (by decide),
    c7_amended_threshold.2 id [c9analyzed] [] (by decide)⟩

theorem stop_eq (numPages lvl : Nat) :
    ∀ rest : List TocEntry, (∀ x ∈ rest, 1 ≤ x.page) →
      min (tocEndPage numPages lvl rest + 1) numPages = amendedStop numPages lvl rest := by
  intro rest
  induction rest with
  | nil =>
    intro _
    simp only [tocEndPage, amendedStop, List.find?_nil]
    omega
  | cons x xs ih =>
    intro hp
    by_cases hx : x.level ≤ lvl
    · have hx1 : 1 ≤ x.page := hp x (List.mem_cons_self x xs)
      have hfind : List.find? (fun y => decide (y.level ≤ lvl)) (x :: xs) = some x :=
        List.find?_cons_of_pos xs (by simpa using hx)
      simp only [tocEndPage, amendedStop, hfind, if_pos hx]
      omega
    · have hfind : List.find? (fun y => decide (y.level ≤ lvl)) (x :: xs)
          = List.find? (fun y => decide (y.level ≤ lvl)) xs :=
        List.find?_cons_of_neg xs (by simpa using hx)
      simp only [tocEndPage, amendedStop, hfind, if_neg hx]
      have := ih (fun y hy => hp y (List.mem_cons_of_mem x hy))
      simpa [amendedStop] using this

theorem sectionPageIdxs_bound (numPages : Nat) (e : TocEntry) (rest : List TocEntry) :
    ∀ i ∈ sectionPageIdxs numPages e rest, i < numPages := by
  intro i hi
  unfold sectionPageIdxs at hi
  have := List.mem_range'_1.mp hi
  omega

theorem joinPages_eq (pages : List (Option Text))
    (h : ∀ o ∈ pages, o.isSome = true) :
    ∀ idxs : List Nat, (∀ i ∈ idxs, i < pages.length) →
      joinPages pages idxs
        = some (joinTexts (idxs.map (fun i => (pages.getD i none).getD []))) := by
  intro idxs
  induction idxs with
  | nil => intro _; rfl
  | cons i is ih =>
    intro hb
    have hi : i < pages.length := hb i (List.mem_cons_self i is)
    have hgd : pages.getD i none = pages[i] := by
      rw [List.getD_eq_getElem?_getD, List.getElem?_eq_getElem hi]
      rfl
    rcases Option.isSome_iff_exists.mp (h pages[i] (List.getElem_mem hi)) with ⟨t, ht⟩
    simp only [joinPages, List.map_cons, joinTexts, hgd, ht, Option.getD_some,
      ih (fun j hj => hb j (List.mem_cons_of_mem i hj))]

theorem range'_shift {α : Type} (g : Nat → α) :
    ∀ (n p : Nat), 1 ≤ p →
      (List.range' p n).map (fun pg => g (pg - 1)) = (List.range' (p - 1) n).map g := by
  intro n
  induction n with
  | zero => intro p _; rfl
  | succ m ih =>
    intro p hp
    rw [List.range'_succ p m 1, List.range'_succ (p - 1) m 1, List.map_cons, List.map_cons,
      ih (p + 1) (by omega)]
    have h1 : p + 1 - 1 = p - 1 + 1 := by omega
    rw [h1]

theorem sectionPageIdxs_map (pages : List (Option Text)) (e : TocEntry)
    (rest : List TocEntry) (hep : 1 ≤ e.page) (hprest : ∀ x ∈ rest, 1 ≤ x.page) :
    (sectionPageIdxs pages.length e rest).map (fun i => (pages.getD i none).getD [])
      = (List.range' e.page
          (amendedStop pages.length e.level rest + 1 - e.page)).map (pageTextOf pages) := by
  unfold sectionPageIdxs
  rw [stop_eq pages.length e.level rest hprest]
  have hn : amendedStop pages.length e.level rest - (e.page - 1)
      = amendedStop pages.length e.level rest + 1 - e.page := by omega
  rw [hn]
  rw [← range'_shift (fun i => (pages.getD i none).getD [])
    (amendedStop pages.length e.level rest + 1 - e.page) e.page hep]
  rfl

theorem extractTocGo_eq (name : Text) (pages : List (Option Text))
    (hrd : ∀ o ∈ pages, o.isSome = true) :
    ∀ toc : List TocEntry, (∀ e ∈ toc, 1 ≤ e.page) →
      extractTocGo name pages.length pages toc
        = .ok (amendedTocSections name pages.length (pageTextOf pages) toc) := by
  intro toc
  induction toc with
  | nil => intro _; rfl
  | cons e rest ih =>
    intro hp
    have hep : 1 ≤ e.page := hp e (List.mem_cons_self e rest)
    have hprest : ∀ x ∈ rest, 1 ≤ x.page := fun x hx => hp x (List.mem_cons_of_mem e hx)
    simp only [extractTocGo, amendedTocSections]
    split
    · rw [joinPages_eq pages hrd _ (sectionPageIdxs_bound pages.length e rest)]
      rw [sectionPageIdxs_map pages e rest hep hprest]
      rw [ih hprest]
      split
      · next x heq => exact Option.noConfusion heq
      · next x content heq =>
        injection heq with h
        subst h
        split <;> simp [consSections]
    · exact ih hprest

/-- Claim C1, counterexample: on the spec's own example — outline
`[Intro at page 1 (H1), Methods at page 3 (H1)]` over five pages whose
texts are `p1 … p5` — the first section's content is the cleaned
concatenation of pages 1–3 (it contains `p3`, text from the sibling
"Methods" entry's range), not of pages 1–2 as the claim requires. -/
theorem c1_counterexample :
    (extract_pdf_sections c1doc).map (fun s => s.content)
      = [str "p1 p2 p3", str "p3 p4 p5"]
    ∧ containsSub (str "p3") (str "p1 p2 p3") = true
    ∧ str "p1 p2 p3" ≠ str "p1 p2" :=
  ⟨by decide, by decide, by decide⟩

/-- Claim C1 as amended: for a TOC-bearing document whose pages all read
successfully and whose outline pages are 1-based, each outline entry at
level ≤ 2 yields a section whose content is the cleaned concatenation of
the page texts from the entry's own start page **through the start page of
the next entry at the same or shallower level, inclusive** (through the
document's last page when no such entry follows) — one page more than the
claim stated, the overlap the counterexample exhibits; blank spans yield no
section and the last span ends at the document's final page. -/
theorem c1_amended_toc_spans (name : Text) (d : PdfData)
    (hp : ∀ e ∈ d.toc, 1 ≤ e.page)
    (hrd : ∀ o ∈ d.pages, o.isSome = true)
    (hne : d.toc ≠ []) :
    extract_pdf_sections ⟨name, some d⟩
      = amendedTocSections name d.pages.length (pageTextOf d.pages) d.toc := by
  have hgo := extractTocGo_eq name d.pages hrd d.toc hp
  have hempty : d.toc.isEmpty = false := by
    cases h : d.toc.isEmpty
    · rfl
    · exact absurd (List.isEmpty_iff.mp h) hne
  simp only [extract_pdf_sections, hempty, Bool.false_eq_true, if_false, hgo]

/-- Witness for C1 at concrete inputs: the spec's example document satisfies
the amended span contract. -/
theorem c1_witness :
    extract_pdf_sections c1doc
      = amendedTocSections (str "doc.pdf") c1data.pages.length
          (pageTextOf c1data.pages) c1data.toc :=
  c1_amended_toc_spans (str "doc.pdf") c1data (by decide) (by decide) (by decide)
